import Mathlib

/-!
Verification of the generic MCTS engine in `mcts/src/lib.rs` of the
`c4-ai` repository.

The Rust source is embedded shallowly:

* `f64` statistics (the `value` field) are modelled as exact rationals `ℚ`:
  the engine only forms convex combinations of playout results, so the
  algorithmic claims are about the exact arithmetic.  The UCB weights,
  which involve `sqrt` and `ln`, are modelled as real numbers.
* panics (`unwrap`, `assert!`, `Range::new(0, 0)`) are modelled as `none`:
  every function that can abort the process returns an `Option`.
* the thread RNG is an injected stream of naturals; `Range::ind_sample` on
  the half-open range `[0, n)` is `stream 0 % n`, and sampling shifts the
  stream.
* the random playout loop, which the Rust code bounds only by the
  finiteness of the underlying game, receives explicit fuel; running out
  of fuel is `none`.
* the lazily consumed `untried_actions` iterator (`S::Actions`) is a list
  consumed from the front: `Iterator::next` is head/tail.
-/

namespace C4ai

/-- The two-player enum `Player` of `mcts/src/lib.rs`. -/
inductive Player : Type where
  | P1 : Player
  | P2 : Player
deriving DecidableEq, Repr

/-- `Player::other`. -/
def Player.other : Player → Player
  | .P1 => .P2
  | .P2 => .P1

/-- The tagged union `Outcome` of `mcts/src/lib.rs`; the `Actions` variant
carries the legal-action iterator of the new position, modelled as a list. -/
inductive Outcome (α : Type) : Type where
  | P1Win : Outcome α
  | P2Win : Outcome α
  | Draw : Outcome α
  | Actions : List α → Outcome α
deriving DecidableEq

/-- `Outcome::value`: the scalar result of a decisive outcome from `player`'s
viewpoint; the catch-all arm gives `0.5`. -/
def Outcome.value {α : Type} : Outcome α → Player → ℚ
  | .P1Win, .P1 => 1
  | .P1Win, .P2 => 0
  | .P2Win, .P1 => 0
  | .P2Win, .P2 => 1
  | _, _ => 1/2

/-- `Outcome::as_actions`: the action iterator of a `Continuing` outcome,
or `Actions::default()` (the empty iterator) for a decisive one. -/
def Outcome.as_actions {α : Type} : Outcome α → List α
  | .Actions acts => acts
  | _ => []

/-- `Outcome::from_player`. -/
def Outcome.from_player {α : Type} : Player → Outcome α
  | .P1 => .P1Win
  | .P2 => .P2Win

/-- The `State` trait of `mcts/src/lib.rs` (the Game State Contract): one
record of the game-specific capabilities the engine consumes.  `do_action`
returns the mutated state together with the `Outcome` the Rust method
returns. -/
structure Game (σ α : Type) where
  initial : σ
  do_action : σ → α → σ × Outcome α
  next_player : σ → Player
  valid_actions : σ → Player → List α
  has_won : σ → Player → Bool

/-- The provided trait method `State::outcome`: a decisive outcome for a won
or drawn position, otherwise `Actions` of the legal moves; an empty legal
set is normalised to `Draw` here. -/
def Game.outcome {σ α : Type} (G : Game σ α) (s : σ) : Outcome α :=
  if G.has_won s .P1 then .P1Win
  else if G.has_won s .P2 then .P2Win
  else
    let actions := G.valid_actions s (G.next_player s)
    if actions.length = 0 then .Draw else .Actions actions

/-- The injected random source: a stream of naturals. -/
structure Rng where
  stream : ℕ → ℕ

/-- One uniform sample from `[0, n)` (`Range::new(0, n)` followed by
`ind_sample`), together with the advanced source. -/
def Rng.draw (r : Rng) (n : ℕ) : ℕ × Rng :=
  (r.stream 0 % n, ⟨fun i => r.stream (i + 1)⟩)

/-- The provided trait method `State::playout`: repeatedly sample one legal
action uniformly at random and apply it until the outcome is decisive, then
return that outcome's scalar value.  `Range::new(0, 0)` (an empty
`Continuing` action set) and a failed `nth` unwrap are panics, i.e. `none`;
the loop itself consumes `fuel`. -/
def Game.playout {σ α : Type} (G : Game σ α) (fuel : ℕ) (state : σ) (r : Rng)
    (player : Player) (outcome : Outcome α) : Option (ℚ × σ × Rng) :=
  match outcome with
  | .Actions acts =>
    match fuel with
    | 0 => none
    | fuel + 1 =>
      if acts.length = 0 then none
      else
        let d := r.draw acts.length
        match acts[d.1]? with
        | none => none
        | some a =>
          let p := G.do_action state a
          G.playout fuel p.1 d.2 player p.2
  | o => some (o.value player, state, r)

/-- One vertex of the search tree: the struct `Node` of `mcts/src/lib.rs`.
Recursive through the `children` field, so it is an inductive with explicit
projections below. -/
inductive Node (α : Type) : Type where
  | mk (action : Option α) (visits : ℕ) (value : ℚ) (untried_actions : List α)
      (children : List (Node α)) (just_acted : Player) : Node α

/-- Field `action`: the action that produced this node; `none` for the root. -/
def Node.action {α : Type} : Node α → Option α
  | .mk a _ _ _ _ _ => a

/-- Field `visits`. -/
def Node.visits {α : Type} : Node α → ℕ
  | .mk _ v _ _ _ _ => v

/-- Field `value`. -/
def Node.value {α : Type} : Node α → ℚ
  | .mk _ _ v _ _ _ => v

/-- Field `untried_actions`. -/
def Node.untried_actions {α : Type} : Node α → List α
  | .mk _ _ _ u _ _ => u

/-- Field `children`. -/
def Node.children {α : Type} : Node α → List (Node α)
  | .mk _ _ _ _ c _ => c

/-- Field `just_acted`. -/
def Node.just_acted {α : Type} : Node α → Player
  | .mk _ _ _ _ _ j => j

mutual

/-- `Node::min_depth`: `children.iter().map(|c| c.min_depth() + 1).min().unwrap_or(0)`.
The iterator `map` over the children is written as the explicit recursive
map `minDepthList` so that the nested recursion is structural. -/
def Node.min_depth {α : Type} : Node α → ℕ
  | .mk _ _ _ _ children _ => (minDepthList children).min?.getD 0

/-- The list `children.iter().map(|c| c.min_depth() + 1)`. -/
def minDepthList {α : Type} : List (Node α) → List ℕ
  | [] => []
  | c :: cs => (Node.min_depth c + 1) :: minDepthList cs

end

/-- `Node::max_depth` exactly as the source writes it: note that it maps each
child to `c.min_depth() + 1` (not the child's own max depth) before taking
the maximum. -/
def Node.max_depth {α : Type} : Node α → ℕ
  | .mk _ _ _ _ children _ => (minDepthList children).max?.getD 0

mutual

/-- Follows the spec's words, for comparison with `Node.max_depth`: the
maximum depth computed recursively as `1 + max` over the children of each
child's own maximum depth, `0` for a leaf. -/
def Node.maxDepthSpec {α : Type} : Node α → ℕ
  | .mk _ _ _ _ children _ => (maxDepthSpecList children).max?.getD 0

/-- The list of `c.maxDepthSpec + 1` over the children. -/
def maxDepthSpecList {α : Type} : List (Node α) → List ℕ
  | [] => []
  | c :: cs => (Node.maxDepthSpec c + 1) :: maxDepthSpecList cs

end

mutual

/-- The per-node invariant of §8 of the spec, read recursively over the whole
subtree: the value is a probability and the visit count is positive. -/
def Node.invB {α : Type} : Node α → Bool
  | .mk _ visits value _ children _ =>
    decide ((0 : ℚ) ≤ value) && decide (value ≤ 1) && decide (1 ≤ visits) &&
      invBList children

/-- The conjunction of `invB` over a list of nodes. -/
def invBList {α : Type} : List (Node α) → Bool
  | [] => true
  | c :: cs => Node.invB c && invBList cs

end

/-- The comparator `f64_cmp` of `mcts/src/lib.rs`:
`a.partial_cmp(&b).unwrap_or(Ordering::Less)`.  On the real-number model of
`f64` there is no NaN, so `partial_cmp` always succeeds and the comparator
is the order's `compare`. -/
noncomputable def f64_cmp (a b : ℝ) : Ordering :=
  compare a b

/-- Tail of `Iterator::max_by`: fold the remaining elements, keeping the
running best and its index; on `Ordering::Greater` the accumulator is kept,
otherwise (less *or equal*) the new element replaces it, so of several
equal maxima the last one wins. -/
def maxByIdxAux {γ : Type} (cmp : γ → γ → Ordering) :
    List γ → γ → ℕ → ℕ → γ × ℕ
  | [], best, bi, _ => (best, bi)
  | x :: xs, best, bi, k =>
    if cmp best x = .gt then maxByIdxAux cmp xs best bi (k + 1)
    else maxByIdxAux cmp xs x k (k + 1)

/-- `Iterator::max_by` over a list, returning the index of the chosen
element rather than a mutable reference to it: `none` on an empty list, and
of several equal maxima the index of the last. -/
def maxByIdx {γ : Type} (cmp : γ → γ → Ordering) : List γ → Option ℕ
  | [] => none
  | x :: xs => some (maxByIdxAux cmp xs x 0 1).2

/-- The closure `weight` inside `Node::choose_child`:
`if max { c.value } else { 1.0 - c.value } + ((visits as f64 * 2.0).ln() / c.visits as f64).sqrt()`. -/
noncomputable def Node.weight {α : Type} (mx : Bool) (visits : ℕ) (c : Node α) : ℝ :=
  (if mx then (c.value : ℝ) else 1 - (c.value : ℝ)) +
    Real.sqrt (Real.log ((visits : ℝ) * 2) / (c.visits : ℝ))

/-- `Node::choose_child`: `self.children.iter_mut().max_by(|a, b| f64_cmp(weight(a), weight(b)))`,
as the index of the chosen child (the Rust function hands back a mutable
reference, used only to recurse into that child and update it in place). -/
noncomputable def Node.choose_child {α : Type} (mx : Bool) (n : Node α) : Option ℕ :=
  maxByIdx (fun a b => f64_cmp (Node.weight mx n.visits a) (Node.weight mx n.visits b))
    n.children

/-- `Node::best_action`:
`self.children.iter().max_by(|a, b| f64_cmp(a.value, b.value)).and_then(|c| c.action)`. -/
noncomputable def Node.best_action {α : Type} (n : Node α) : Option α :=
  (maxByIdx (fun a b => f64_cmp ((a.value : ℝ)) ((b.value : ℝ))) n.children).bind
    fun i => (n.children[i]?).bind Node.action

/-- `Node::new`: run one playout to seed the value; a node is created with
one visit, no children, and the continuing outcome's actions as its untried
actions.  A faulting playout propagates as `none`. -/
def Node.new {σ α : Type} (G : Game σ α) (fuel : ℕ) (action : Option α)
    (just_acted : Player) (state : σ) (outcome : Outcome α) (perspective : Player)
    (r : Rng) : Option (Node α × Rng) :=
  match G.playout fuel state r perspective outcome with
  | none => none
  | some (value, _, r') =>
    some (Node.mk action 1 value outcome.as_actions [] just_acted, r')

/-- The expression `self.action.map(|a| state.do_action(a))` that opens both
`Node::select` and the tail of `MCTree::do_action`: apply the node's own
action, if any, to the state, discarding the returned outcome. -/
def applyAction {σ α : Type} (G : Game σ α) (state : σ) : Option α → σ
  | some a => (G.do_action state a).1
  | none => state

/-- `Node::select`, one iteration of the tree policy at this node: apply the
node's own action to the local state clone, then either expand the next
untried action (creating one new child via `Node.new`), or descend into the
UCB-chosen child, or — at a terminal node — just revisit; the visit count
always grows by one and the value is updated to the incremental mean.
Returns the updated node, the backpropagated playout result, and the
advanced random source; `none` is a panic somewhere below. -/
noncomputable def Node.select {σ α : Type} (G : Game σ α) (fuel : ℕ) (n : Node α)
    (state : σ) (r : Rng) (player : Player) : Option (Node α × ℚ × Rng) :=
  match n with
  | .mk act vis val untried children ja =>
    let state1 := applyAction G state act
    match untried with
    | [] =>
      if children.isEmpty then
        some (Node.mk act (vis + 1) val untried children ja, val, r)
      else
        match Node.choose_child (decide (player ≠ ja)) (Node.mk act vis val untried children ja) with
        | none => none
        | some i =>
          match hc : children[i]? with
          | none => none
          | some c =>
            match Node.select G fuel c state1 r player with
            | none => none
            | some (c', v, r') =>
              some (Node.mk act (vis + 1) ((val * (vis : ℚ) + v) / ((vis : ℚ) + 1))
                untried (children.set i c') ja, v, r')
    | a :: rest =>
      let p := G.do_action state1 a
      match Node.new G fuel (some a) ja.other p.1 p.2 player r with
      | none => none
      | some (child, r') =>
        some (Node.mk act (vis + 1) ((val * (vis : ℚ) + child.value) / ((vis : ℚ) + 1))
          rest (children ++ [child]) ja, child.value, r')
termination_by sizeOf n
decreasing_by
  have h := List.sizeOf_lt_of_mem (List.getElem?_mem hc)
  simp only [Node.mk.sizeOf_spec]
  omega

/-- The struct `MCTree`: the root node, the persistent reference state, the
random source and the fixed perspective player.  The game implementation
`G` is passed to each operation (in Rust it is the type parameter's trait
impl). -/
structure MCTree (σ α : Type) where
  root : Node α
  state : σ
  rng : Rng
  perspective : Player

/-- `MCTree::iter`: one tree-policy iteration of `search_for`'s loop — run
`select` on the root against a clone of the reference state, keeping the
updated root and random source and dropping the returned value. -/
noncomputable def MCTree.iter {σ α : Type} (G : Game σ α) (fuel : ℕ)
    (t : MCTree σ α) : Option (MCTree σ α) :=
  match Node.select G fuel t.root t.state t.rng t.perspective with
  | none => none
  | some (root', _, r') => some ⟨root', t.state, r', t.perspective⟩

/-- `K` completed iterations of `search_for`'s loop (the wall-clock deadline
only decides how many iterations run, so the loop is modelled by its
iteration count). -/
noncomputable def MCTree.iterN {σ α : Type} (G : Game σ α) (fuel : ℕ) :
    ℕ → MCTree σ α → Option (MCTree σ α)
  | 0, t => some t
  | k + 1, t =>
    match MCTree.iter G fuel t with
    | none => none
    | some t' => MCTree.iterN G fuel k t'

/-- `Iterator::position`: the index of the first element satisfying the
predicate. -/
def position {γ : Type} (p : γ → Bool) : List γ → Option ℕ
  | [] => none
  | x :: xs => if p x then some 0 else (position p xs).map (· + 1)

/-- `MCTree::do_action` (the `advance` / re-rooting operation): find the
first child of the root whose action equals `action` (`position` +
`unwrap`, so a missing action is a panic, i.e. `none`), remove it, promote
it to be the new root, drop the old root and every other child, and apply
the *old* root's action, if any, to the reference state. -/
def MCTree.do_action {σ α : Type} [DecidableEq α] (G : Game σ α)
    (t : MCTree σ α) (action : α) : Option (MCTree σ α) :=
  match position (fun c => c.action == some action) t.root.children with
  | none => none
  | some index =>
    match t.root.children[index]? with
    | none => none
    | some new_root =>
      some ⟨new_root, applyAction G t.state t.root.action, t.rng, t.perspective⟩

/-- `MCTree::choose_and_do_action`: assert that it is the perspective
player's turn at the root (a failed `assert!` is a panic, i.e. `none`),
unwrap `best_action` (panic when the root has no recommendable child), then
advance by it; returns the committed action with the advanced tree. -/
noncomputable def MCTree.choose_and_do_action {σ α : Type} [DecidableEq α]
    (G : Game σ α) (t : MCTree σ α) : Option (α × MCTree σ α) :=
  if t.perspective = t.root.just_acted then none
  else
    match t.root.best_action with
    | none => none
    | some action =>
      match MCTree.do_action G t action with
      | none => none
      | some t' => some (action, t')

/-- `MCTree::new`: seed a single root node (whose `just_acted` is the mover
before `to_move` and whose untried actions are the current position's legal
actions) with one playout, keeping the given state as the reference state.
The random source is injected rather than taken from the thread. -/
def MCTree.new {σ α : Type} (G : Game σ α) (fuel : ℕ) (state : σ)
    (perspective to_move : Player) (r : Rng) : Option (MCTree σ α) :=
  match Node.new G fuel none to_move.other state (G.outcome state) perspective r with
  | none => none
  | some (root, r') => some ⟨root, state, r', perspective⟩

/-! ## Basic lemmas about the embedded definitions -/

@[simp]
theorem Node.action_mk {α : Type} (a : Option α) (v : ℕ) (q : ℚ) (u : List α)
    (c : List (Node α)) (j : Player) : (Node.mk a v q u c j).action = a := rfl

@[simp]
theorem Node.visits_mk {α : Type} (a : Option α) (v : ℕ) (q : ℚ) (u : List α)
    (c : List (Node α)) (j : Player) : (Node.mk a v q u c j).visits = v := rfl

@[simp]
theorem Node.value_mk {α : Type} (a : Option α) (v : ℕ) (q : ℚ) (u : List α)
    (c : List (Node α)) (j : Player) : (Node.mk a v q u c j).value = q := rfl

@[simp]
theorem Node.untried_actions_mk {α : Type} (a : Option α) (v : ℕ) (q : ℚ) (u : List α)
    (c : List (Node α)) (j : Player) : (Node.mk a v q u c j).untried_actions = u := rfl

@[simp]
theorem Node.children_mk {α : Type} (a : Option α) (v : ℕ) (q : ℚ) (u : List α)
    (c : List (Node α)) (j : Player) : (Node.mk a v q u c j).children = c := rfl

@[simp]
theorem Node.just_acted_mk {α : Type} (a : Option α) (v : ℕ) (q : ℚ) (u : List α)
    (c : List (Node α)) (j : Player) : (Node.mk a v q u c j).just_acted = j := rfl

/-- A node is its list of fields. -/
theorem Node.eta {α : Type} (n : Node α) :
    n = Node.mk n.action n.visits n.value n.untried_actions n.children n.just_acted := by
  cases n
  rfl

/-- The invariant of a list of nodes is the invariant of each node. -/
theorem invBList_iff {α : Type} (c : List (Node α)) :
    invBList c = true ↔ ∀ x ∈ c, x.invB = true := by
  induction c with
  | nil => simp [invBList]
  | cons x xs ih => simp [invBList, ih]

/-- The recursive invariant, unfolded one level. -/
theorem Node.invB_iff {α : Type} (a : Option α) (v : ℕ) (q : ℚ) (u : List α)
    (c : List (Node α)) (j : Player) :
    (Node.mk a v q u c j).invB = true ↔
      0 ≤ q ∧ q ≤ 1 ∧ 1 ≤ v ∧ ∀ x ∈ c, x.invB = true := by
  rw [Node.invB]
  simp only [Bool.and_eq_true, decide_eq_true_eq, invBList_iff, and_assoc]

/-- The scalar value of a decisive outcome is a probability. -/
theorem Outcome.value_bounds {α : Type} (o : Outcome α) (p : Player) :
    0 ≤ o.value p ∧ o.value p ≤ 1 := by
  cases o <;> cases p <;> simp [Outcome.value] <;> norm_num

/-- Unfolding `playout` at a decisive `P1Win` outcome. -/
theorem Game.playout_P1Win {σ α : Type} (G : Game σ α) (fuel : ℕ) (state : σ)
    (r : Rng) (player : Player) :
    G.playout fuel state r player (.P1Win : Outcome α) =
      some ((Outcome.P1Win : Outcome α).value player, state, r) := by
  cases fuel <;> rfl

/-- Unfolding `playout` at a decisive `P2Win` outcome. -/
theorem Game.playout_P2Win {σ α : Type} (G : Game σ α) (fuel : ℕ) (state : σ)
    (r : Rng) (player : Player) :
    G.playout fuel state r player (.P2Win : Outcome α) =
      some ((Outcome.P2Win : Outcome α).value player, state, r) := by
  cases fuel <;> rfl

/-- Unfolding `playout` at a `Draw` outcome. -/
theorem Game.playout_Draw {σ α : Type} (G : Game σ α) (fuel : ℕ) (state : σ)
    (r : Rng) (player : Player) :
    G.playout fuel state r player (.Draw : Outcome α) =
      some ((Outcome.Draw : Outcome α).value player, state, r) := by
  cases fuel <;> rfl

/-- Unfolding `playout` at a `Continuing` outcome with no fuel left. -/
theorem Game.playout_Actions_zero {σ α : Type} (G : Game σ α) (state : σ)
    (r : Rng) (player : Player) (acts : List α) :
    G.playout 0 state r player (.Actions acts) = none := rfl

/-- Unfolding `playout` at a `Continuing` outcome with fuel left. -/
theorem Game.playout_Actions_succ {σ α : Type} (G : Game σ α) (fuel : ℕ) (state : σ)
    (r : Rng) (player : Player) (acts : List α) :
    G.playout (fuel + 1) state r player (.Actions acts) =
      (if acts.length = 0 then none
       else
         match acts[(r.draw acts.length).1]? with
         | none => none
         | some a =>
           G.playout fuel (G.do_action state a).1 (r.draw acts.length).2 player
             (G.do_action state a).2) := rfl

/-- A playout result is a probability. -/
theorem Game.playout_bounds {σ α : Type} (G : Game σ α) (fuel : ℕ) :
    ∀ (state : σ) (r : Rng) (player : Player) (o : Outcome α) (v : ℚ) (s' : σ) (r' : Rng),
      G.playout fuel state r player o = some (v, s', r') → 0 ≤ v ∧ v ≤ 1 := by
  induction fuel with
  | zero =>
    intro state r player o v s' r' h
    match o with
    | .Actions acts => rw [Game.playout_Actions_zero] at h; exact absurd h (by simp)
    | .P1Win =>
      rw [Game.playout_P1Win] at h
      obtain ⟨rfl, -⟩ := by simpa using h
      exact Outcome.value_bounds _ _
    | .P2Win =>
      rw [Game.playout_P2Win] at h
      obtain ⟨rfl, -⟩ := by simpa using h
      exact Outcome.value_bounds _ _
    | .Draw =>
      rw [Game.playout_Draw] at h
      obtain ⟨rfl, -⟩ := by simpa using h
      exact Outcome.value_bounds _ _
  | succ fuel ih =>
    intro state r player o v s' r' h
    match o with
    | .Actions acts =>
      rw [Game.playout_Actions_succ] at h
      by_cases hl : acts.length = 0
      · simp [hl] at h
      · simp only [hl, if_false] at h
        match hnth : acts[(r.draw acts.length).1]? with
        | none => rw [hnth] at h; exact absurd h (by simp)
        | some a =>
          rw [hnth] at h
          exact ih _ _ _ _ _ _ _ h
    | .P1Win =>
      rw [Game.playout_P1Win] at h
      obtain ⟨rfl, -⟩ := by simpa using h
      exact Outcome.value_bounds _ _
    | .P2Win =>
      rw [Game.playout_P2Win] at h
      obtain ⟨rfl, -⟩ := by simpa using h
      exact Outcome.value_bounds _ _
    | .Draw =>
      rw [Game.playout_Draw] at h
      obtain ⟨rfl, -⟩ := by simpa using h
      exact Outcome.value_bounds _ _

/-- The incremental mean of two probabilities is a probability. -/
theorem mean_bounds (q v : ℚ) (vis : ℕ) (h0 : 0 ≤ q) (h1 : q ≤ 1)
    (hv0 : 0 ≤ v) (hv1 : v ≤ 1) :
    0 ≤ (q * (vis : ℚ) + v) / ((vis : ℚ) + 1) ∧
      (q * (vis : ℚ) + v) / ((vis : ℚ) + 1) ≤ 1 := by
  have hvis : (0 : ℚ) ≤ (vis : ℚ) := Nat.cast_nonneg vis
  have hpos : (0 : ℚ) < (vis : ℚ) + 1 := by linarith
  constructor
  · exact div_nonneg (by nlinarith) (le_of_lt hpos)
  · rw [div_le_one hpos]
    nlinarith

/-- What a successful `Node.new` returns. -/
theorem Node.new_spec {σ α : Type} (G : Game σ α) (fuel : ℕ) (action : Option α)
    (just_acted : Player) (state : σ) (outcome : Outcome α) (perspective : Player)
    (r : Rng) (n : Node α) (r' : Rng)
    (h : Node.new G fuel action just_acted state outcome perspective r = some (n, r')) :
    n.action = action ∧ n.visits = 1 ∧ 0 ≤ n.value ∧ n.value ≤ 1 ∧
      n.untried_actions = outcome.as_actions ∧ n.children = [] ∧
      n.just_acted = just_acted ∧ n.invB = true := by
  rw [Node.new] at h
  match hp : G.playout fuel state r perspective outcome with
  | none => rw [hp] at h; exact absurd h (by simp)
  | some (v, s', r'') =>
    rw [hp] at h
    obtain ⟨hb0, hb1⟩ := G.playout_bounds fuel state r perspective outcome v s' r'' hp
    obtain ⟨rfl, -⟩ := by simpa using h
    refine ⟨rfl, rfl, hb0, hb1, rfl, rfl, rfl, ?_⟩
    rw [Node.invB_iff]
    simp [hb0, hb1]

/-! ## Lemmas about `position` (`Iterator::position`) -/

/-- A miss of `position` is exactly a predicate no element satisfies. -/
theorem position_eq_none_iff {γ : Type} (p : γ → Bool) (l : List γ) :
    position p l = none ↔ ∀ x ∈ l, ¬ p x = true := by
  induction l with
  | nil => simp [position]
  | cons x xs ih =>
    by_cases hx : p x = true
    · simp [position, hx]
    · simp [position, hx, ih]

/-- A hit of `position` is in range and satisfies the predicate. -/
theorem position_eq_some {γ : Type} (p : γ → Bool) (l : List γ) (i : ℕ)
    (h : position p l = some i) :
    ∃ hi : i < l.length, p (l.get ⟨i, hi⟩) = true := by
  induction l generalizing i with
  | nil => simp [position] at h
  | cons x xs ih =>
    by_cases hx : p x = true
    · simp only [position, hx, if_true, Option.some.injEq] at h
      subst h
      exact ⟨by simp, hx⟩
    · simp only [position, hx, if_false] at h
      match hxs : position p xs with
      | none => rw [hxs] at h; exact absurd h (by simp)
      | some j =>
        rw [hxs] at h
        simp at h
        subst h
        obtain ⟨hjl, hpj⟩ := ih j hxs
        exact ⟨by simpa using hjl, by simpa using hpj⟩

/-- A predicate some element satisfies gives `position` a hit. -/
theorem position_isSome {γ : Type} (p : γ → Bool) (l : List γ) (x : γ)
    (hx : x ∈ l) (hp : p x = true) : ∃ i, position p l = some i := by
  match h : position p l with
  | some i => exact ⟨i, rfl⟩
  | none => exact absurd hp ((position_eq_none_iff p l).1 h x hx)

/-! ## The `max_by` comparator semantics

`Iterator::max_by` with the comparator `f64_cmp ∘ weight` keeps the running
maximum, replacing it whenever the new element compares greater *or equal*;
of several equal maxima it therefore returns the last.  The following two
lemmas characterise `maxByIdxAux`/`maxByIdx` for any comparator of the form
`compare (w a) (w b)` over a linear order (which `f64_cmp` is, on the
real-number model of `f64`). -/

theorem maxByIdxAux_spec {γ β : Type} [LinearOrder β] (w : γ → β) :
    ∀ (xs : List γ) (best : γ) (bi k : ℕ),
      (maxByIdxAux (fun a b => compare (w a) (w b)) xs best bi k = (best, bi) ∧
        ∀ x ∈ xs, w x < w best) ∨
      (∃ j, ∃ hj : j < xs.length,
        maxByIdxAux (fun a b => compare (w a) (w b)) xs best bi k =
          (xs.get ⟨j, hj⟩, k + j) ∧
        w best ≤ w (xs.get ⟨j, hj⟩) ∧
        (∀ m, ∀ hm : m < xs.length, w (xs.get ⟨m, hm⟩) ≤ w (xs.get ⟨j, hj⟩)) ∧
        (∀ m, ∀ hm : m < xs.length, j < m → w (xs.get ⟨m, hm⟩) < w (xs.get ⟨j, hj⟩))) := by
  intro xs
  induction xs with
  | nil =>
    intro best bi k
    left
    exact ⟨rfl, by simp⟩
  | cons x xs ih =>
    intro best bi k
    by_cases hcmp : compare (w best) (w x) = .gt
    · have hlt : w x < w best := compare_gt_iff_gt.1 hcmp
      rw [maxByIdxAux, if_pos hcmp]
      rcases ih best bi (k + 1) with ⟨heq, hall⟩ | ⟨j, hj, heq, hbest, hall, hstrict⟩
      · left
        refine ⟨heq, ?_⟩
        intro y hy
        rcases List.mem_cons.1 hy with rfl | hy'
        · exact hlt
        · exact hall y hy'
      · right
        refine ⟨j + 1, by simpa using Nat.succ_lt_succ hj, ?_, ?_, ?_, ?_⟩
        · rw [heq, Prod.mk.injEq]
          exact ⟨by simp, by omega⟩
        · simpa using hbest
        · intro m hm
          match m with
          | 0 => simpa using le_trans (le_of_lt hlt) hbest
          | m + 1 =>
            have hm' : m < xs.length := by simpa using hm
            simpa using hall m hm'
        · intro m hm hjm
          match m with
          | 0 => omega
          | m + 1 =>
            have hm' : m < xs.length := by simpa using hm
            simpa using hstrict m hm' (by omega)
    · have hle : w best ≤ w x := le_of_not_lt (fun h => hcmp (compare_gt_iff_gt.2 h))
      rw [maxByIdxAux, if_neg hcmp]
      rcases ih x k (k + 1) with ⟨heq, hall⟩ | ⟨j, hj, heq, hbest, hall, hstrict⟩
      · right
        refine ⟨0, by simp, ?_, ?_, ?_, ?_⟩
        · rw [heq]
          simp
        · simpa using hle
        · intro m hm
          match m with
          | 0 => exact le_refl _
          | m + 1 =>
            have hm' : m < xs.length := by simpa using hm
            simpa using le_of_lt (hall _ (List.get_mem xs m hm'))
        · intro m hm hjm
          match m with
          | 0 => omega
          | m + 1 =>
            have hm' : m < xs.length := by simpa using hm
            simpa using hall _ (List.get_mem xs m hm')
      · right
        refine ⟨j + 1, by simpa using Nat.succ_lt_succ hj, ?_, ?_, ?_, ?_⟩
        · rw [heq, Prod.mk.injEq]
          exact ⟨by simp, by omega⟩
        · simpa using le_trans hle hbest
        · intro m hm
          match m with
          | 0 => simpa using hbest
          | m + 1 =>
            have hm' : m < xs.length := by simpa using hm
            simpa using hall m hm'
        · intro m hm hjm
          match m with
          | 0 => omega
          | m + 1 =>
            have hm' : m < xs.length := by simpa using hm
            simpa using hstrict m hm' (by omega)

/-- `maxByIdx` with a `compare`-of-weights comparator returns the index of
the *last* element of maximal weight. -/
theorem maxByIdx_argmax {γ β : Type} [LinearOrder β] (w : γ → β) (l : List γ)
    (hne : l ≠ []) :
    ∃ i, ∃ hi : i < l.length,
      maxByIdx (fun a b => compare (w a) (w b)) l = some i ∧
      (∀ j, ∀ hj : j < l.length, w (l.get ⟨j, hj⟩) ≤ w (l.get ⟨i, hi⟩)) ∧
      (∀ j, ∀ hj : j < l.length, i < j → w (l.get ⟨j, hj⟩) < w (l.get ⟨i, hi⟩)) := by
  match l with
  | [] => exact absurd rfl hne
  | x :: xs =>
    rcases maxByIdxAux_spec w xs x 0 1 with ⟨heq, hall⟩ | ⟨j, hj, heq, hbest, hall, hstrict⟩
    · refine ⟨0, by simp, ?_, ?_, ?_⟩
      · rw [maxByIdx, heq]
      · intro m hm
        match m with
        | 0 => exact le_refl _
        | m + 1 =>
          have hm' : m < xs.length := by simpa using hm
          simpa using le_of_lt (hall _ (List.get_mem xs m hm'))
      · intro m hm hjm
        match m with
        | 0 => omega
        | m + 1 =>
          have hm' : m < xs.length := by simpa using hm
          simpa using hall _ (List.get_mem xs m hm')
    · refine ⟨1 + j, by simpa using by omega, ?_, ?_, ?_⟩
      · rw [maxByIdx, heq]
      · intro m hm
        have h1j : (1 + j) < (x :: xs).length := by simp; omega
        have hgj : (x :: xs).get ⟨1 + j, h1j⟩ = xs.get ⟨j, hj⟩ := by
          have : 1 + j = j + 1 := by omega
          simp [this]
        rw [hgj]
        match m with
        | 0 => simpa using hbest
        | m + 1 =>
          have hm' : m < xs.length := by simpa using hm
          simpa using hall m hm'
      · intro m hm hjm
        have h1j : (1 + j) < (x :: xs).length := by simp; omega
        have hgj : (x :: xs).get ⟨1 + j, h1j⟩ = xs.get ⟨j, hj⟩ := by
          have : 1 + j = j + 1 := by omega
          simp [this]
        rw [hgj]
        match m with
        | 0 => omega
        | m + 1 =>
          have hm' : m < xs.length := by simpa using hm
          simpa using hstrict m hm' (by omega)

/-! ## Unfolding equations for `Node.select`, one per branch -/

/-- Terminal branch: no untried actions, no children — revisit in place. -/
theorem Node.select_eq_terminal {σ α : Type} (G : Game σ α) (fuel : ℕ)
    (a : Option α) (vis : ℕ) (val : ℚ) (children : List (Node α)) (ja : Player)
    (state : σ) (r : Rng) (player : Player) (hch : children.isEmpty = true) :
    Node.select G fuel (Node.mk a vis val [] children ja) state r player =
      some (Node.mk a (vis + 1) val [] children ja, val, r) := by
  rw [Node.select.eq_def]
  dsimp only
  rw [if_pos hch]

/-- Selection branch, failed chooser (unreachable when children exist). -/
theorem Node.select_eq_choose_none {σ α : Type} (G : Game σ α) (fuel : ℕ)
    (a : Option α) (vis : ℕ) (val : ℚ) (children : List (Node α)) (ja : Player)
    (state : σ) (r : Rng) (player : Player) (hch : ¬children.isEmpty = true)
    (hcc : Node.choose_child (decide (player ≠ ja))
      (Node.mk a vis val [] children ja) = none) :
    Node.select G fuel (Node.mk a vis val [] children ja) state r player = none := by
  rw [Node.select.eq_def]
  dsimp only
  rw [if_neg hch, hcc]

/-- Selection branch, chooser index out of range (unreachable). -/
theorem Node.select_eq_get_none {σ α : Type} (G : Game σ α) (fuel : ℕ)
    (a : Option α) (vis : ℕ) (val : ℚ) (children : List (Node α)) (ja : Player)
    (state : σ) (r : Rng) (player : Player) (i : ℕ) (hch : ¬children.isEmpty = true)
    (hcc : Node.choose_child (decide (player ≠ ja))
      (Node.mk a vis val [] children ja) = some i)
    (hci : children[i]? = none) :
    Node.select G fuel (Node.mk a vis val [] children ja) state r player = none := by
  rw [Node.select.eq_def]
  dsimp only
  rw [if_neg hch, hcc]
  dsimp only
  split
  · rfl
  · rename_i c heq
    rw [hci] at heq
    cases heq

/-- Selection branch: descend into the chosen child and fold its result into
this node's statistics. -/
theorem Node.select_eq_selection {σ α : Type} (G : Game σ α) (fuel : ℕ)
    (a : Option α) (vis : ℕ) (val : ℚ) (children : List (Node α)) (ja : Player)
    (state : σ) (r : Rng) (player : Player) (i : ℕ) (c : Node α)
    (hch : ¬children.isEmpty = true)
    (hcc : Node.choose_child (decide (player ≠ ja))
      (Node.mk a vis val [] children ja) = some i)
    (hci : children[i]? = some c) :
    Node.select G fuel (Node.mk a vis val [] children ja) state r player =
      Option.map
        (fun x => (Node.mk a (vis + 1) ((val * (vis : ℚ) + x.2.1) / ((vis : ℚ) + 1))
          [] (children.set i x.1) ja, x.2.1, x.2.2))
        (Node.select G fuel c (applyAction G state a) r player) := by
  rw [Node.select.eq_def]
  dsimp only
  rw [if_neg hch, hcc]
  dsimp only
  split
  · rename_i heq
    rw [hci] at heq
    cases heq
  · rename_i c' heq
    rw [hci] at heq
    cases heq
    cases Node.select G fuel c (applyAction G state a) r player with
    | none => rfl
    | some x =>
      obtain ⟨c', v, r'⟩ := x
      rfl

/-- Expansion branch: consume the first untried action, create one child. -/
theorem Node.select_eq_expansion {σ α : Type} (G : Game σ α) (fuel : ℕ)
    (a : Option α) (vis : ℕ) (val : ℚ) (x : α) (xs : List α)
    (children : List (Node α)) (ja : Player) (state : σ) (r : Rng) (player : Player) :
    Node.select G fuel (Node.mk a vis val (x :: xs) children ja) state r player =
      Option.map
        (fun q => (Node.mk a (vis + 1)
          ((val * (vis : ℚ) + q.1.value) / ((vis : ℚ) + 1))
          xs (children ++ [q.1]) ja, q.1.value, q.2))
        (Node.new G fuel (some x) ja.other
          (G.do_action (applyAction G state a) x).1
          (G.do_action (applyAction G state a) x).2 player r) := by
  rw [Node.select.eq_def]
  dsimp only
  cases Node.new G fuel (some x) ja.other
      (G.do_action (applyAction G state a) x).1
      (G.do_action (applyAction G state a) x).2 player r with
  | none => rfl
  | some q =>
    obtain ⟨child, r'⟩ := q
    rfl

/-- Every successful `select` call increments this node's visit count by
exactly one and keeps its identity fields; when the node satisfied the
tree invariant, the updated node still does and the backpropagated result
is a probability. -/
theorem Node.select_spec {σ α : Type} (G : Game σ α) (fuel : ℕ)
    (n : Node α) (state : σ) (r : Rng) (player : Player) :
    ∀ n' v r', Node.select G fuel n state r player = some (n', v, r') →
      n'.visits = n.visits + 1 ∧ n'.action = n.action ∧ n'.just_acted = n.just_acted ∧
        (n.invB = true → n'.invB = true ∧ 0 ≤ v ∧ v ≤ 1) := by
  induction n, state, r, player using Node.select.induct G fuel with
  | case1 state r player a vis val children ja hch =>
    intro n' v r' h
    rw [Node.select_eq_terminal G fuel a vis val children ja state r player hch] at h
    simp only [Option.some.injEq, Prod.mk.injEq] at h
    obtain ⟨h1, h2, h3⟩ := h
    subst h1
    subst h2
    subst h3
    refine ⟨by simp, by simp, by simp, ?_⟩
    intro hin
    rw [Node.invB_iff] at hin ⊢
    exact ⟨⟨hin.1, hin.2.1, by omega, hin.2.2.2⟩, hin.1, hin.2.1⟩
  | case2 state r player a vis val children ja hne hcc =>
    intro n' v r' h
    rw [Node.select_eq_choose_none G fuel a vis val children ja state r player hne hcc] at h
    cases h
  | case3 state r player a vis val children ja hne i hci hcc =>
    intro n' v r' h
    rw [Node.select_eq_get_none G fuel a vis val children ja state r player i hne hcc hci] at h
    cases h
  | case4 state r player a vis val children ja s1 hne i c hci hrec hcc ih =>
    intro n' v r' h
    have hrec' : Node.select G fuel c (applyAction G state a) r player = none := hrec
    rw [Node.select_eq_selection G fuel a vis val children ja state r player i c hne hcc hci,
      hrec'] at h
    cases h
  | case5 state r player a vis val children ja s1 hne i c hci c2 v2 r2 hrec hcc ih =>
    intro n' v r' h
    have hrec' : Node.select G fuel c (applyAction G state a) r player = some (c2, v2, r2) := hrec
    rw [Node.select_eq_selection G fuel a vis val children ja state r player i c hne hcc hci,
      hrec'] at h
    simp only [Option.map_some', Option.some.injEq, Prod.mk.injEq] at h
    obtain ⟨h1, h2, h3⟩ := h
    subst h1
    subst h2
    subst h3
    obtain ⟨hv, hact, hja, hinv⟩ := ih c2 v2 r2 hrec'
    refine ⟨by simp, by simp, by simp, ?_⟩
    intro hin
    rw [Node.invB_iff] at hin
    have hcmem : c ∈ children := List.getElem?_mem hci
    have hcinv : c.invB = true := hin.2.2.2 c hcmem
    obtain ⟨hcinv', hv0, hv1⟩ := hinv hcinv
    have hmean := mean_bounds val v2 vis hin.1 hin.2.1 hv0 hv1
    rw [Node.invB_iff]
    refine ⟨⟨hmean.1, hmean.2, by omega, ?_⟩, hv0, hv1⟩
    intro y hy
    rcases List.mem_or_eq_of_mem_set hy with hy' | rfl
    · exact hin.2.2.2 y hy'
    · exact hcinv'
  | case6 state r player a vis val children ja s1 x xs p1 hnew =>
    intro n' v r' h
    have hnew' : Node.new G fuel (some x) ja.other (G.do_action (applyAction G state a) x).1
        (G.do_action (applyAction G state a) x).2 player r = none := hnew
    rw [Node.select_eq_expansion G fuel a vis val x xs children ja state r player, hnew'] at h
    cases h
  | case7 state r player a vis val children ja s1 x xs p1 child r2 hnew =>
    intro n' v r' h
    have hnew' : Node.new G fuel (some x) ja.other (G.do_action (applyAction G state a) x).1
        (G.do_action (applyAction G state a) x).2 player r = some (child, r2) := hnew
    rw [Node.select_eq_expansion G fuel a vis val x xs children ja state r player, hnew'] at h
    simp only [Option.map_some', Option.some.injEq, Prod.mk.injEq] at h
    obtain ⟨h1, h2, h3⟩ := h
    subst h1
    subst h2
    subst h3
    obtain ⟨hact, hvis1, hval0, hval1, huntried, hchild, hja2, hinvc⟩ :=
      Node.new_spec G fuel (some x) ja.other _ _ player r child r2 hnew'
    refine ⟨by simp, by simp, by simp, ?_⟩
    intro hin
    rw [Node.invB_iff] at hin
    have hmean := mean_bounds val child.value vis hin.1 hin.2.1 hval0 hval1
    rw [Node.invB_iff]
    refine ⟨⟨hmean.1, hmean.2, by omega, ?_⟩, hval0, hval1⟩
    intro y hy
    rcases List.mem_append.1 hy with hy' | hy'
    · exact hin.2.2.2 y hy'
    · rw [List.mem_singleton] at hy'
      subst hy'
      exact hinvc

/-! ## The advance operation, concrete instances, and the claims -/

/-- What a successful advance returns: the new root is (exactly, fields and
subtree included) the first child whose action matches, the reference state
is the old state advanced by the *old* root's action, and the random source
and perspective are untouched. -/
theorem MCTree.do_action_spec {σ α : Type} [DecidableEq α] (G : Game σ α)
    (t : MCTree σ α) (a : α) (t' : MCTree σ α)
    (h : MCTree.do_action G t a = some t') :
    ∃ i, position (fun c => c.action == some a) t.root.children = some i ∧
      ∃ hi : i < t.root.children.length,
        t'.root = t.root.children.get ⟨i, hi⟩ ∧
        t'.root.action = some a ∧
        t'.state = applyAction G t.state t.root.action ∧
        t'.rng = t.rng ∧ t'.perspective = t.perspective := by
  rw [MCTree.do_action] at h
  match hp : position (fun c => c.action == some a) t.root.children with
  | none => rw [hp] at h; cases h
  | some i =>
    rw [hp] at h
    dsimp only at h
    obtain ⟨hi, hpi⟩ := position_eq_some _ _ _ hp
    have hgi : t.root.children[i]? = some (t.root.children.get ⟨i, hi⟩) := by
      rw [List.getElem?_eq_getElem hi]
      simp
    rw [hgi] at h
    simp only [Option.some.injEq] at h
    subst h
    refine ⟨i, hp, hi, rfl, ?_, rfl, rfl, rfl⟩
    simpa using hpi

/-- The advance operation misses exactly when no child of the root carries
the action. -/
theorem MCTree.do_action_eq_none {σ α : Type} [DecidableEq α] (G : Game σ α)
    (t : MCTree σ α) (a : α) (h : ∀ c ∈ t.root.children, c.action ≠ some a) :
    MCTree.do_action G t a = none := by
  rw [MCTree.do_action]
  have hp : position (fun c => c.action == some a) t.root.children = none := by
    rw [position_eq_none_iff]
    intro c hc
    simp only [beq_iff_eq]
    exact h c hc
  rw [hp]

/-- A toy conforming game for the concrete instances below: a state counts
the moves played, and any action ends the game with a win for `P1`. -/
def G1 : Game ℕ ℕ :=
  ⟨0, fun s _ => (s + 1, .P1Win), fun _ => .P1, fun _ _ => [0], fun _ _ => false⟩

/-- The injected random stream used by the concrete instances: all zeros. -/
def r0 : Rng := ⟨fun _ => 0⟩

/-- A tree whose root has one untried action and no children. -/
def t1 : MCTree ℕ ℕ := ⟨.mk none 1 1 [0] [] .P2, 0, r0, .P1⟩

/-- C1: calling `advance` (`MCTree::do_action`) with an action that is not
the action of any child of the root does not return a recoverable
`ActionNotFound` error: the unchecked `unwrap` of the failed `position`
lookup panics — the call aborts the process (`none` in the model). -/
theorem claim_C1 {σ α : Type} [DecidableEq α] (G : Game σ α) (t : MCTree σ α)
    (a : α) (h : ∀ c ∈ t.root.children, c.action ≠ some a) :
    MCTree.do_action G t a = none :=
  MCTree.do_action_eq_none G t a h

/-- C1, witnessed at a concrete tree with no children: the action `5` was
never expanded and `advance` panics. -/
theorem claim_C1_witness :
    (∀ c ∈ t1.root.children, c.action ≠ some 5) ∧ MCTree.do_action G1 t1 5 = none :=
  ⟨by decide, claim_C1 G1 t1 5 (by decide)⟩

/-- A tree whose fresh root (its own action is `none`) has one expanded
child, reached by action `7`. -/
def t2 : MCTree ℕ ℕ := ⟨.mk none 1 (1/2) [] [.mk (some 7) 1 (1/2) [] [] .P1] .P2, 0, r0, .P1⟩

/-- C2 counterexample: advancing `t2` by the expanded action `7` leaves the
reference state at `0`, although the position reached by the action sequence
of the new root — which includes the new root's own action `7` — is
`(G1.do_action 0 7).1 = 1`.  `advance` does not apply the committed action
to the reference state. -/
theorem claim_C2_counterexample :
    (MCTree.do_action G1 t2 7).map MCTree.state = some 0 ∧ (G1.do_action 0 7).1 = 1 :=
  ⟨rfl, rfl⟩

/-- C2 (amended): a successful advance updates the reference state by the
*old* root's action, if any — not by the committed action `a`; the committed
action becomes the new root's own action, which `select` applies lazily to
its local state clone at the start of each subsequent iteration. -/
theorem claim_C2 {σ α : Type} [DecidableEq α] (G : Game σ α) (t : MCTree σ α)
    (a : α) (t' : MCTree σ α) (h : MCTree.do_action G t a = some t') :
    t'.state = applyAction G t.state t.root.action ∧ t'.root.action = some a := by
  obtain ⟨i, hp, hi, hroot, hact, hstate, -, -⟩ := MCTree.do_action_spec G t a t' h
  exact ⟨hstate, hact⟩

/-- The result of advancing `t2` by the action `7`. -/
def t2' : MCTree ℕ ℕ := ⟨.mk (some 7) 1 (1/2) [] [] .P1, 0, r0, .P1⟩

/-- C2, witnessed at `t2`. -/
theorem claim_C2_witness :
    t2'.state = applyAction G1 t2.state t2.root.action ∧ t2'.root.action = some 7 :=
  claim_C2 G1 t2 7 t2' rfl

/-- C5: after a successful advance the new root *is* the first child of the
old root whose action matches — the same node, with its visit count, value,
action, untried actions and entire subtree of children unchanged (structural
equality of the nodes), and the random source and perspective are untouched;
nothing is recomputed. -/
theorem claim_C5 {σ α : Type} [DecidableEq α] (G : Game σ α) (t : MCTree σ α)
    (a : α) (t' : MCTree σ α) (h : MCTree.do_action G t a = some t') :
    ∃ i, position (fun c => c.action == some a) t.root.children = some i ∧
      ∃ hi : i < t.root.children.length,
        t'.root = t.root.children.get ⟨i, hi⟩ ∧
        t'.rng = t.rng ∧ t'.perspective = t.perspective := by
  obtain ⟨i, hp, hi, hroot, -, -, hrng, hpersp⟩ := MCTree.do_action_spec G t a t' h
  exact ⟨i, hp, hi, hroot, hrng, hpersp⟩

/-- C5, witnessed at `t2`: the new root is the old child node. -/
theorem claim_C5_witness :
    ∃ i, position (fun c => c.action == some 7) t2.root.children = some i ∧
      ∃ hi : i < t2.root.children.length,
        t2'.root = t2.root.children.get ⟨i, hi⟩ ∧
        t2'.rng = t2.rng ∧ t2'.perspective = t2.perspective :=
  claim_C5 G1 t2 7 t2' rfl

/-- The tree of depths used against C3: the root has a single line of length
one to a branching node, whose two branches have depths one and two. -/
def n3 : Node ℕ :=
  .mk none 1 0 [] [.mk (some 0) 1 0 []
    [.mk (some 1) 1 0 [] [] .P1,
     .mk (some 2) 1 0 [] [.mk (some 3) 1 0 [] [] .P1] .P2] .P1] .P2

/-- C3: the exposed `max_depth` of `n3` is `2`, but the recursive
`1 + max over children of the child's own max depth` of the spec gives `3`:
the source's `max_depth` takes `max` over the children's `min_depth`.
`min_depth` does follow the spec's recursion (`2` here, on both readings). -/
theorem claim_C3 :
    Node.max_depth n3 = 2 ∧ Node.maxDepthSpec n3 = 3 ∧ Node.min_depth n3 = 2 := by
  decide

/-- C9: a `playout` handed a `Continuing` outcome with an empty action set
panics (`Range::new(0, 0)` asserts that the sampling range is nonempty),
modelled as `none`, for every fuel, state, random source and perspective —
it does not return `0.5`.  (The defensive empty-set-to-`Draw` normalisation
exists only in `State::outcome`, which `playout` does not consult.) -/
theorem claim_C9 {σ α : Type} (G : Game σ α) (fuel : ℕ) (state : σ) (r : Rng)
    (player : Player) :
    G.playout fuel state r player (Outcome.Actions ([] : List α)) = none := by
  cases fuel with
  | zero => rfl
  | succ fuel =>
    rw [Game.playout_Actions_succ]
    simp

/-- A node with two children that tie on the UCB score (equal values, equal
visit counts; they differ only in their actions). -/
def n4 : Node ℕ :=
  .mk none 3 (1/2) []
    [.mk (some 0) 1 (1/2) [] [] .P2, .mk (some 1) 1 (1/2) [] [] .P2] .P1

/-- C4 counterexample: with two score-tied children, `choose_child` returns
the child at index `1` — the *last* maximum — not the first maximum at
index `0` that the claim requires. -/
theorem claim_C4_counterexample : Node.choose_child true n4 = some 1 := by
  have hw : Node.weight true 3 (Node.mk (some 0) 1 (1/2) [] [] Player.P2) =
      Node.weight true 3 (Node.mk (some 1) 1 (1/2) [] [] Player.P2) := by
    simp [Node.weight]
  have hcmp : f64_cmp (Node.weight true 3 (Node.mk (some 0) 1 (1/2) [] [] Player.P2))
      (Node.weight true 3 (Node.mk (some 1) 1 (1/2) [] [] Player.P2)) = Ordering.eq := by
    rw [f64_cmp, hw]
    exact compare_eq_iff_eq.2 rfl
  rw [Node.choose_child]
  dsimp only [n4, Node.visits_mk, Node.children_mk]
  rw [maxByIdx, maxByIdxAux, hcmp]
  rfl

/-- C4 (amended): for a node with no untried actions and at least one child,
selection computes for each child `c` the score
`(maximize ? c.value : 1 - c.value) + sqrt(ln(2 * visits) / c.visits)` with
`maximize = (player ≠ just_acted)`, and descends into the child of highest
score — but ties break in favour of the *last* maximum in iteration order,
not the first: the chosen index `i` has maximal score, every child after `i`
scores strictly lower, and `select` recurses into exactly child `i`. -/
theorem claim_C4 {σ α : Type} (G : Game σ α) (fuel : ℕ) (n : Node α)
    (state : σ) (r : Rng) (player : Player)
    (hu : n.untried_actions = []) (hch : n.children ≠ []) :
    ∃ i, ∃ hi : i < n.children.length,
      Node.choose_child (decide (player ≠ n.just_acted)) n = some i ∧
      (∀ j, ∀ hj : j < n.children.length,
        Node.weight (decide (player ≠ n.just_acted)) n.visits (n.children.get ⟨j, hj⟩) ≤
          Node.weight (decide (player ≠ n.just_acted)) n.visits (n.children.get ⟨i, hi⟩)) ∧
      (∀ j, ∀ hj : j < n.children.length, i < j →
        Node.weight (decide (player ≠ n.just_acted)) n.visits (n.children.get ⟨j, hj⟩) <
          Node.weight (decide (player ≠ n.just_acted)) n.visits (n.children.get ⟨i, hi⟩)) ∧
      (∀ c : Node α, Node.weight (decide (player ≠ n.just_acted)) n.visits c =
        (if player ≠ n.just_acted then (c.value : ℝ) else 1 - (c.value : ℝ)) +
          Real.sqrt (Real.log ((n.visits : ℝ) * 2) / (c.visits : ℝ))) ∧
      Node.select G fuel n state r player =
        Option.map
          (fun x => (Node.mk n.action (n.visits + 1)
            ((n.value * (n.visits : ℚ) + x.2.1) / ((n.visits : ℚ) + 1))
            n.untried_actions (n.children.set i x.1) n.just_acted, x.2.1, x.2.2))
          (Node.select G fuel (n.children.get ⟨i, hi⟩) (applyAction G state n.action)
            r player) := by
  obtain ⟨a, vis, val, u, children, ja⟩ := n
  simp only [Node.untried_actions_mk] at hu
  subst hu
  simp only [Node.children_mk, Node.just_acted_mk, Node.visits_mk, Node.value_mk,
    Node.action_mk] at *
  have hch' : ¬children.isEmpty = true := by
    simpa [List.isEmpty_iff] using hch
  obtain ⟨i, hi, hmax, hall, hstrict⟩ :=
    maxByIdx_argmax (Node.weight (decide (player ≠ ja)) vis) children hch
  have hcc : Node.choose_child (decide (player ≠ ja))
      (Node.mk a vis val [] children ja) = some i := by
    rw [Node.choose_child]
    simp only [Node.visits_mk, Node.children_mk]
    exact hmax
  have hci : children[i]? = some (children.get ⟨i, hi⟩) := by
    rw [List.getElem?_eq_getElem hi]
    simp
  refine ⟨i, hi, hcc, hall, hstrict, ?_, ?_⟩
  · intro c
    by_cases hpj : player = ja
    · simp [Node.weight, hpj]
    · simp [Node.weight, hpj]
  · exact Node.select_eq_selection G fuel a vis val children ja state r player i _ hch' hcc hci

/-- The single-child node instantiating C4's amended statement. -/
def n4w : Node ℕ := .mk none 1 1 [] [.mk (some 0) 1 1 [] [] .P2] .P1

/-- C4, witnessed at a single-child node. -/
theorem claim_C4_witness :
    ∃ i, ∃ hi : i < n4w.children.length,
      Node.choose_child (decide (Player.P1 ≠ n4w.just_acted)) n4w = some i ∧
      (∀ j, ∀ hj : j < n4w.children.length,
        Node.weight (decide (Player.P1 ≠ n4w.just_acted)) n4w.visits (n4w.children.get ⟨j, hj⟩) ≤
          Node.weight (decide (Player.P1 ≠ n4w.just_acted)) n4w.visits (n4w.children.get ⟨i, hi⟩)) ∧
      (∀ j, ∀ hj : j < n4w.children.length, i < j →
        Node.weight (decide (Player.P1 ≠ n4w.just_acted)) n4w.visits (n4w.children.get ⟨j, hj⟩) <
          Node.weight (decide (Player.P1 ≠ n4w.just_acted)) n4w.visits (n4w.children.get ⟨i, hi⟩)) ∧
      (∀ c : Node ℕ, Node.weight (decide (Player.P1 ≠ n4w.just_acted)) n4w.visits c =
        (if Player.P1 ≠ n4w.just_acted then (c.value : ℝ) else 1 - (c.value : ℝ)) +
          Real.sqrt (Real.log ((n4w.visits : ℝ) * 2) / (c.visits : ℝ))) ∧
      Node.select G1 5 n4w 0 r0 Player.P1 =
        Option.map
          (fun x => (Node.mk n4w.action (n4w.visits + 1)
            ((n4w.value * (n4w.visits : ℚ) + x.2.1) / ((n4w.visits : ℚ) + 1))
            n4w.untried_actions (n4w.children.set i x.1) n4w.just_acted, x.2.1, x.2.2))
          (Node.select G1 5 (n4w.children.get ⟨i, hi⟩) (applyAction G1 0 n4w.action)
            r0 Player.P1) :=
  claim_C4 G1 5 n4w 0 r0 Player.P1 rfl (by simp [n4w])

/-- C8 counterexample: `best_action` on the two-way value tie of `n4`
returns the action of the *last* maximal child (`1`), not the first
maximum that the claim requires. -/
theorem claim_C8_counterexample : Node.best_action n4 = some 1 := by
  have hcmp : f64_cmp (((Node.mk (some 0) 1 (1/2) ([] : List ℕ) [] Player.P2).value : ℝ))
      (((Node.mk (some 1) 1 (1/2) ([] : List ℕ) [] Player.P2).value : ℝ)) = Ordering.eq := by
    rw [f64_cmp]
    exact compare_eq_iff_eq.2 rfl
  rw [Node.best_action]
  dsimp only [n4, Node.children_mk]
  rw [maxByIdx, maxByIdxAux, hcmp]
  rfl

/-- What `best_action` returns on a root with children all of which carry
an action: the action of a child of maximal raw value, ties to the last
maximum. -/
theorem Node.best_action_spec {α : Type} (n : Node α)
    (hsome : ∀ c ∈ n.children, (c.action).isSome = true) (hne : n.children ≠ []) :
    ∃ i, ∃ hi : i < n.children.length, ∃ a,
      Node.best_action n = some a ∧ (n.children.get ⟨i, hi⟩).action = some a ∧
      (∀ j, ∀ hj : j < n.children.length,
        (n.children.get ⟨j, hj⟩).value ≤ (n.children.get ⟨i, hi⟩).value) ∧
      (∀ j, ∀ hj : j < n.children.length, i < j →
        (n.children.get ⟨j, hj⟩).value < (n.children.get ⟨i, hi⟩).value) := by
  obtain ⟨i, hi, hmax, hall, hstrict⟩ :=
    maxByIdx_argmax (fun c : Node α => ((c.value : ℝ))) n.children hne
  have hci : n.children[i]? = some (n.children.get ⟨i, hi⟩) := by
    rw [List.getElem?_eq_getElem hi]
    simp
  have hact : (n.children.get ⟨i, hi⟩).action.isSome = true :=
    hsome _ (List.get_mem n.children i hi)
  obtain ⟨a, ha⟩ := Option.isSome_iff_exists.1 hact
  refine ⟨i, hi, a, ?_, ha, ?_, ?_⟩
  · rw [Node.best_action]
    have hmax' : maxByIdx
        (fun a b : Node α => f64_cmp ((a.value : ℝ)) ((b.value : ℝ))) n.children =
        some i := hmax
    rw [hmax']
    simp only [Option.some_bind]
    rw [hci]
    simp only [Option.some_bind]
    exact ha
  · intro j hj
    exact_mod_cast hall j hj
  · intro j hj hij
    exact_mod_cast hstrict j hj hij

/-- C8 (amended): `best_action` returns `none` exactly when the root has no
children (given the engine invariant that every child node carries an
action); with at least one child it returns the action of a child of
maximal raw value — no exploration term — and ties break in favour of the
*last* maximum in iteration order, not the first.  The returned action is
always the action of one of the children. -/
theorem claim_C8 {α : Type} (n : Node α)
    (hsome : ∀ c ∈ n.children, (c.action).isSome = true) :
    (Node.best_action n = none ↔ n.children = []) ∧
    (n.children ≠ [] → ∃ i, ∃ hi : i < n.children.length, ∃ a,
      Node.best_action n = some a ∧ (n.children.get ⟨i, hi⟩).action = some a ∧
      (∀ j, ∀ hj : j < n.children.length,
        (n.children.get ⟨j, hj⟩).value ≤ (n.children.get ⟨i, hi⟩).value) ∧
      (∀ j, ∀ hj : j < n.children.length, i < j →
        (n.children.get ⟨j, hj⟩).value < (n.children.get ⟨i, hi⟩).value)) := by
  refine ⟨⟨?_, ?_⟩, Node.best_action_spec n hsome⟩
  · intro hnone
    by_contra hne
    obtain ⟨i, hi, a, ha, -⟩ := Node.best_action_spec n hsome hne
    rw [hnone] at ha
    cases ha
  · intro hnil
    rw [Node.best_action, hnil]
    rfl

/-- The single-child node instantiating C8's amended statement. -/
def n8w : Node ℕ := .mk none 2 (1/2) [] [.mk (some 4) 1 (3/4) [] [] .P2] .P1

/-- C8, witnessed at a single-child node: `best_action` misses exactly on a
childless root. -/
theorem claim_C8_witness : Node.best_action n8w = none ↔ n8w.children = [] :=
  (claim_C8 n8w (by decide)).1

/-- One `iter` step: the root's visit count grows by one, the invariant is
preserved, and the reference state and perspective are untouched. -/
theorem MCTree.iter_spec {σ α : Type} (G : Game σ α) (fuel : ℕ)
    (t t' : MCTree σ α) (h : MCTree.iter G fuel t = some t') :
    t'.root.visits = t.root.visits + 1 ∧ (t.root.invB = true → t'.root.invB = true) ∧
      t'.state = t.state ∧ t'.perspective = t.perspective := by
  rw [MCTree.iter] at h
  match hs : Node.select G fuel t.root t.state t.rng t.perspective with
  | none => rw [hs] at h; cases h
  | some x =>
    obtain ⟨n', v, r'⟩ := x
    rw [hs] at h
    simp only [Option.some.injEq] at h
    subst h
    obtain ⟨hv, -, -, hinv⟩ := Node.select_spec G fuel t.root t.state t.rng t.perspective n' v r' hs
    exact ⟨hv, fun hi => (hinv hi).1, rfl, rfl⟩

/-- `K` completed iterations add exactly `K` root visits and preserve the
invariant. -/
theorem MCTree.iterN_spec {σ α : Type} (G : Game σ α) (fuel : ℕ) :
    ∀ (K : ℕ) (t t' : MCTree σ α), MCTree.iterN G fuel K t = some t' →
      t'.root.visits = t.root.visits + K ∧ (t.root.invB = true → t'.root.invB = true) := by
  intro K
  induction K with
  | zero =>
    intro t t' h
    rw [MCTree.iterN] at h
    simp only [Option.some.injEq] at h
    subst h
    exact ⟨rfl, fun hi => hi⟩
  | succ k ih =>
    intro t t' h
    rw [MCTree.iterN] at h
    match hi : MCTree.iter G fuel t with
    | none => rw [hi] at h; cases h
    | some t1 =>
      rw [hi] at h
      obtain ⟨h1, h1inv, -, -⟩ := MCTree.iter_spec G fuel t t1 hi
      obtain ⟨h2, h2inv⟩ := ih t1 t' h
      exact ⟨by omega, fun hin => h2inv (h1inv hin)⟩

/-- C6: from a freshly constructed tree, after `K` completed search
iterations the root's visit count is exactly `K + 1`: the root is created
with one visit from its seeding playout, and every iteration — expansion,
selection or terminal revisit alike — adds exactly one. -/
theorem claim_C6 {σ α : Type} (G : Game σ α) (fuel : ℕ) (state : σ)
    (perspective to_move : Player) (r : Rng) (K : ℕ) (t0 t : MCTree σ α)
    (h0 : MCTree.new G fuel state perspective to_move r = some t0)
    (hK : MCTree.iterN G fuel K t0 = some t) :
    t.root.visits = K + 1 := by
  rw [MCTree.new] at h0
  match hn : Node.new G fuel none to_move.other state (G.outcome state) perspective r with
  | none => rw [hn] at h0; cases h0
  | some x =>
    obtain ⟨root, r'⟩ := x
    rw [hn] at h0
    simp only [Option.some.injEq] at h0
    subst h0
    obtain ⟨-, h1, -⟩ :=
      Node.new_spec G fuel none to_move.other state (G.outcome state) perspective r root r' hn
    have hiter := (MCTree.iterN_spec G fuel K _ t hK).1
    simp only at hiter
    omega

/-- The tree `MCTree.new G1 5 0 P1 P1 r0` constructs: one root seeded by one
playout (which consumed one random draw). -/
def t6 : MCTree ℕ ℕ :=
  ⟨.mk none 1 1 [0] [] .P2, 0, ⟨fun i => r0.stream (i + 1)⟩, .P1⟩

/-- The tree after one iteration of `t6` (the expansion branch ran). -/
def t6f : MCTree ℕ ℕ :=
  ⟨.mk none 2 1 [] [.mk (some 0) 1 1 [] [] .P1] .P2, 0,
    ⟨fun i => r0.stream (i + 1)⟩, .P1⟩

/-- One evaluated `select` step on `t6`'s root: the expansion branch. -/
theorem t6_select :
    Node.select G1 5 (Node.mk none 1 1 [0] [] Player.P2) 0
      (⟨fun i => r0.stream (i + 1)⟩ : Rng) Player.P1 =
      some (Node.mk none 2 1 [] [Node.mk (some 0) 1 1 [] [] Player.P1] Player.P2, 1,
        ⟨fun i => r0.stream (i + 1)⟩) := by
  rw [Node.select_eq_expansion]
  simp [G1, Node.new, Game.playout, applyAction, Rng.draw, Outcome.as_actions,
    Outcome.value, Player.other, Node.value]

/-- One evaluated iteration on `t6`. -/
theorem t6_iter : MCTree.iterN G1 5 1 t6 = some t6f := by
  rw [MCTree.iterN, MCTree.iter]
  dsimp only [t6]
  rw [t6_select]
  dsimp only
  rw [MCTree.iterN]
  dsimp only [t6f]

/-- C6, witnessed at `K = 1` on the toy game: two root visits. -/
theorem claim_C6_witness : t6f.root.visits = 1 + 1 :=
  claim_C6 G1 5 0 Player.P1 Player.P1 r0 1 t6 t6f rfl t6_iter

/-- C7: the node invariant — `0 ≤ value ≤ 1` and `visits ≥ 1`, read over
every node of the subtree — is established by node creation and by tree
construction, and is preserved by every engine operation: one `select`
iteration (whose backpropagated result is moreover a probability), any
number of completed search iterations, and re-rooting by `advance`. -/
theorem claim_C7 {σ α : Type} [DecidableEq α] (G : Game σ α) (fuel : ℕ) :
    (∀ (action : Option α) (ja : Player) (state : σ) (o : Outcome α) (p : Player)
      (r : Rng) (n : Node α) (r' : Rng),
      Node.new G fuel action ja state o p r = some (n, r') → n.invB = true) ∧
    (∀ (state : σ) (p tm : Player) (r : Rng) (t : MCTree σ α),
      MCTree.new G fuel state p tm r = some t → t.root.invB = true) ∧
    (∀ (n : Node α) (state : σ) (r : Rng) (p : Player) (n' : Node α) (v : ℚ) (r' : Rng),
      n.invB = true → Node.select G fuel n state r p = some (n', v, r') →
        n'.invB = true ∧ 0 ≤ v ∧ v ≤ 1) ∧
    (∀ (K : ℕ) (t t' : MCTree σ α), t.root.invB = true →
      MCTree.iterN G fuel K t = some t' → t'.root.invB = true) ∧
    (∀ (t t' : MCTree σ α) (a : α), t.root.invB = true →
      MCTree.do_action G t a = some t' → t'.root.invB = true) := by
  refine ⟨?_, ?_, ?_, ?_, ?_⟩
  · intro action ja state o p r n r' h
    exact (Node.new_spec G fuel action ja state o p r n r' h).2.2.2.2.2.2.2
  · intro state p tm r t h
    rw [MCTree.new] at h
    match hn : Node.new G fuel none tm.other state (G.outcome state) p r with
    | none => rw [hn] at h; cases h
    | some x =>
      obtain ⟨root, r2⟩ := x
      rw [hn] at h
      simp only [Option.some.injEq] at h
      subst h
      exact (Node.new_spec G fuel none tm.other state (G.outcome state) p r root r2 hn).2.2.2.2.2.2.2
  · intro n state r p n' v r' hin h
    obtain ⟨-, -, -, hinv⟩ := Node.select_spec G fuel n state r p n' v r' h
    exact hinv hin
  · intro K t t' hin h
    exact (MCTree.iterN_spec G fuel K t t' h).2 hin
  · intro t t' a hin h
    obtain ⟨i, -, hi, hroot, -⟩ := MCTree.do_action_spec G t a t' h
    rw [hroot]
    have hun := (Node.invB_iff t.root.action t.root.visits t.root.value
      t.root.untried_actions t.root.children t.root.just_acted).1 (by rw [← Node.eta]; exact hin)
    exact hun.2.2.2 _ (List.get_mem t.root.children i hi)

/-- C7, witnessed: the root node seeded by `MCTree.new G1 5 0 P1 P1 r0`
satisfies the invariant. -/
theorem claim_C7_witness :
    (Node.mk none 1 1 [0] ([] : List (Node ℕ)) Player.P2).invB = true :=
  (claim_C7 G1 5).1 none Player.P2 0 (Outcome.Actions [0]) Player.P1 r0
    (Node.mk none 1 1 [0] [] Player.P2) ⟨fun i => r0.stream (i + 1)⟩ rfl

/-- A found child yields a successful advance. -/
theorem MCTree.do_action_isSome {σ α : Type} [DecidableEq α] (G : Game σ α)
    (t : MCTree σ α) (a : α) (c : Node α) (hc : c ∈ t.root.children)
    (hact : c.action = some a) : ∃ t', MCTree.do_action G t a = some t' := by
  obtain ⟨j, hj⟩ := position_isSome (fun c => c.action == some a) t.root.children c hc
    (by simp [hact])
  obtain ⟨hjl, -⟩ := position_eq_some _ _ _ hj
  refine ⟨⟨t.root.children.get ⟨j, hjl⟩, applyAction G t.state t.root.action,
    t.rng, t.perspective⟩, ?_⟩
  rw [MCTree.do_action, hj]
  dsimp only
  rw [List.getElem?_eq_getElem hjl]
  simp

/-- C10: `choose_and_do_action` has the unstated precondition that it is the
perspective player's turn at the root: under it — and the engine invariant
that the root's children carry actions — a root with at least one child
makes the internal assertion and both unchecked lookups succeed; when the
precondition fails, the assertion panics (a process abort, `none`), rather
than returning an error. -/
theorem claim_C10 {σ α : Type} [DecidableEq α] (G : Game σ α) (t : MCTree σ α)
    (hsome : ∀ c ∈ t.root.children, (c.action).isSome = true) :
    (t.perspective ≠ t.root.just_acted → t.root.children ≠ [] →
      ∃ a t', MCTree.choose_and_do_action G t = some (a, t')) ∧
    (t.perspective = t.root.just_acted → MCTree.choose_and_do_action G t = none) := by
  constructor
  · intro hp hne
    obtain ⟨i, hi, a, hba, hact, -⟩ := Node.best_action_spec t.root hsome hne
    obtain ⟨t', ht'⟩ := MCTree.do_action_isSome G t a _ (List.get_mem t.root.children i hi) hact
    refine ⟨a, t', ?_⟩
    rw [MCTree.choose_and_do_action, if_neg hp, hba]
    dsimp only
    rw [ht']
  · intro hp
    rw [MCTree.choose_and_do_action, if_pos hp]

/-- C10, witnessed at `t2` (perspective `P1`, root `just_acted` `P2`, one
child): the commit path succeeds, and flipping nothing else, the assertion
branch is the abort. -/
theorem claim_C10_witness :
    ((t2.perspective ≠ t2.root.just_acted → t2.root.children ≠ [] →
      ∃ a t', MCTree.choose_and_do_action G1 t2 = some (a, t')) ∧
     (t2.perspective = t2.root.just_acted → MCTree.choose_and_do_action G1 t2 = none)) :=
  claim_C10 G1 t2 (by decide)

end C4ai
